import Mathlib

/-!
Verification development for the centralized-rules audit agent.

The definitions below are a shallow embedding of the Python sources
`scripts/audit-agent/core.py`, `scripts/audit-agent/rules_parser.py` and
`scripts/audit-agent/mece_analyzer.py`.  Pure Python functions become Lean
functions; filesystem reads become explicit inputs (a list of existing
marker paths, an optional parsed index, an in-memory document corpus where
a `none` content models a read failure); Python exceptions become
`Except`/`Option` results.  Python `set` values are modelled as `Finset`;
Python numeric division is modelled over `ℚ`, with a division whose
denominator is zero mapped to an error (Python raises ZeroDivisionError).
-/

set_option allowUnsafeReducibility true
attribute [semireducible] Rat.add Rat.mul Rat.inv Rat.sub Rat.blt

deriving instance DecidableEq for Except

namespace AuditAgent

/-! ## String utilities shared by the embedding -/

/-- Membership of `needle` as a contiguous substring of `hay`,
the Lean counterpart of the Python expression `needle in hay`. -/
def containsSub : List Char → List Char → Bool
  | [], needle => needle.isEmpty
  | c :: t, needle => needle.isPrefixOf (c :: t) || containsSub t needle

/-- Python `needle in hay` on strings. -/
def strIn (needle hay : String) : Bool :=
  containsSub hay.toList needle.toList

/-- Fuel-driven replacement of every non-overlapping occurrence of `pat`
(left to right) by `rep`; fuel bounds the number of consumed characters.
Structural recursion on the fuel keeps concrete instances
kernel-reducible. -/
def replaceFuel (pat rep : List Char) : Nat → List Char → List Char
  | 0, cs => cs
  | _ + 1, [] => []
  | n + 1, c :: rest =>
    if !pat.isEmpty && pat.isPrefixOf (c :: rest) then
      rep ++ replaceFuel pat rep n (List.drop pat.length (c :: rest))
    else c :: replaceFuel pat rep n rest

/-- Python `s.replace(pat, rep)` for a nonempty `pat` (every use in the
source replaces a hyphen by a space). -/
def replaceStr (s pat rep : String) : String :=
  String.mk (replaceFuel pat.toList rep.toList s.toList.length s.toList)

/-- Fuel-driven splitting at every occurrence of the separator, with an
accumulator for the current segment (reversed). -/
def splitSepFuel (sep : List Char) : Nat → List Char → List Char → List String
  | 0, _, acc => [String.mk acc.reverse]
  | _ + 1, [], acc => [String.mk acc.reverse]
  | n + 1, c :: rest, acc =>
    if !sep.isEmpty && sep.isPrefixOf (c :: rest) then
      String.mk acc.reverse :: splitSepFuel sep n (List.drop sep.length (c :: rest)) []
    else splitSepFuel sep n rest (c :: acc)

/-- Python `s.split(sep)` for a nonempty separator. -/
def splitOnStr (s sep : String) : List String :=
  if sep = "" then [s] else splitSepFuel sep.toList s.toList.length s.toList []

/-- Python `s.startswith(pre)`. -/
def startsWithStr (s pre : String) : Bool :=
  pre.toList.isPrefixOf s.toList

/-- Python `s.lower()` (ASCII model, matching `Char.toLower`). -/
def toLowerStr (s : String) : String :=
  String.mk (s.toList.map Char.toLower)

/-- Python `s.strip()`: surrounding whitespace removed. -/
def trimStr (s : String) : String :=
  String.mk (((s.toList.dropWhile Char.isWhitespace).reverse.dropWhile
    Char.isWhitespace).reverse)

/-- Python `sep.join(parts)`. -/
def intercalateStr (sep : String) : List String → String
  | [] => ""
  | [x] => x
  | x :: rest => x ++ sep ++ intercalateStr sep rest

/-- Lexicographic comparison of character lists by code point, the order
Python `sorted` uses on strings. -/
def charListLe : List Char → List Char → Bool
  | [], _ => true
  | _ :: _, [] => false
  | a :: as, b :: bs =>
    if a.toNat < b.toNat then true
    else if b.toNat < a.toNat then false
    else charListLe as bs

/-- Lexicographic code-point order on strings as a proposition. -/
def strLeRel (a b : String) : Prop :=
  charListLe a.toList b.toList = true

instance : DecidableRel strLeRel := fun a b =>
  inferInstanceAs (Decidable (charListLe a.toList b.toList = true))

theorem charListLe_total : ∀ as bs, charListLe as bs = true ∨ charListLe bs as = true := by
  intro as
  induction as with
  | nil => intro bs; left; rfl
  | cons a as ih =>
    intro bs
    cases bs with
    | nil => right; rfl
    | cons b bs =>
      simp only [charListLe]
      rcases Nat.lt_trichotomy a.toNat b.toNat with h | h | h
      · left; simp [h]
      · rcases ih bs with h2 | h2 <;> simp [h, h2]
      · right; simp [h, Nat.lt_asymm h]

theorem charListLe_trans : ∀ as bs cs, charListLe as bs = true →
    charListLe bs cs = true → charListLe as cs = true := by
  intro as
  induction as with
  | nil => intro bs cs _ _; rfl
  | cons a as ih =>
    intro bs cs hab hbc
    cases bs with
    | nil => simp [charListLe] at hab
    | cons b bs =>
      cases cs with
      | nil => simp [charListLe] at hbc
      | cons c cs =>
        simp only [charListLe] at hab hbc ⊢
        by_cases h1 : a.toNat < b.toNat
        · by_cases h2 : b.toNat < c.toNat
          · have : a.toNat < c.toNat := Nat.lt_trans h1 h2
            simp [this]
          · by_cases h4 : c.toNat < b.toNat
            · simp [h2, h4] at hbc
            · have : a.toNat < c.toNat := by omega
              simp [this]
        · by_cases h3 : b.toNat < a.toNat
          · simp [h1, h3] at hab
          · by_cases h2 : b.toNat < c.toNat
            · have : a.toNat < c.toNat := by omega
              simp [this]
            · by_cases h4 : c.toNat < b.toNat
              · simp [h2, h4] at hbc
              · have h5 : ¬ a.toNat < c.toNat := by omega
                have h6 : ¬ c.toNat < a.toNat := by omega
                simp [h1, h3] at hab
                simp [h2, h4] at hbc
                simp [h5, h6]
                exact ih bs cs hab hbc

theorem char_toNat_inj {a b : Char} (h : a.toNat = b.toNat) : a = b := by
  apply Char.ext
  apply UInt32.ext
  exact h

theorem charListLe_antisymm : ∀ as bs, charListLe as bs = true →
    charListLe bs as = true → as = bs := by
  intro as
  induction as with
  | nil =>
    intro bs _ hba
    cases bs with
    | nil => rfl
    | cons b bs => simp [charListLe] at hba
  | cons a as ih =>
    intro bs hab hba
    cases bs with
    | nil => simp [charListLe] at hab
    | cons b bs =>
      simp only [charListLe] at hab hba
      by_cases h1 : a.toNat < b.toNat
      · exfalso
        have h2 : ¬ b.toNat < a.toNat := Nat.lt_asymm h1
        simp [h1, h2, Nat.lt_irrefl] at hba
      · by_cases h3 : b.toNat < a.toNat
        · simp [h1, h3] at hab
        · have : a = b := char_toNat_inj (by omega)
          subst this
          simp [Nat.lt_irrefl] at hab hba
          exact congrArg (a :: ·) (ih bs hab hba)

instance : IsTrans String strLeRel :=
  ⟨fun a b c => charListLe_trans a.toList b.toList c.toList⟩

instance : IsTotal String strLeRel :=
  ⟨fun a b => charListLe_total a.toList b.toList⟩

theorem string_toList_inj {a b : String} (h : a.toList = b.toList) : a = b :=
  congrArg String.mk h

instance : IsAntisymm String strLeRel :=
  ⟨fun a b hab hba => string_toList_inj (charListLe_antisymm a.toList b.toList hab hba)⟩

/-- Python `sorted` on a set of strings: the elements in ascending order.
Implemented with the structural `insertionSort` so that concrete
instances evaluate inside the kernel. -/
def sortedList (s : Finset String) : List String :=
  Quot.liftOn s.val (fun l => l.insertionSort strLeRel) (fun a b h =>
    List.eq_of_perm_of_sorted
      ((List.perm_insertionSort _ a).trans (h.trans (List.perm_insertionSort _ b).symm))
      (List.sorted_insertionSort _ a) (List.sorted_insertionSort _ b))

/-- Python `pathlib.Path(p).stem`: the final path component without its
last extension.  The extension starts at the last dot of the final
component provided that dot is neither the first nor the last character. -/
def pathStem (p : String) : String :=
  let segs := (splitOnStr p "/").filter (fun s => s ≠ "")
  let name := segs.getLastD ""
  let cs := name.toList
  let n := cs.length
  let dotIdxs := (List.range n).filter (fun i => cs.getD i ' ' = '.')
  match dotIdxs.getLast? with
  | some i => if 0 < i && i < n - 1 then String.mk (cs.take i) else name
  | none => name

/-- Word characters in the sense of the regex class `\w` (ASCII model). -/
def isWordChar (c : Char) : Bool :=
  c.isAlphanum || c = '_'

/-- Splits a character list into the maximal runs of characters satisfying
`keep`; used for regex word matching and for Python `str.split()`. -/
def maximalRuns (keep : Char → Bool) : List Char → List Char → List String
  | [], acc => if acc.isEmpty then [] else [String.mk acc.reverse]
  | c :: rest, acc =>
    if keep c then maximalRuns keep rest (c :: acc)
    else if acc.isEmpty then maximalRuns keep rest []
    else String.mk acc.reverse :: maximalRuns keep rest []

/-- All maximal word-character runs of a string.  A regex `\bw\b` with `w`
made of word characters matches a string exactly when `w` is one of its
maximal word runs. -/
def wordsOf (s : String) : List String :=
  maximalRuns isWordChar s.toList []

/-- Python `len(content.split())`: the number of whitespace-separated words. -/
def countWords (s : String) : Nat :=
  (maximalRuns (fun c => !c.isWhitespace) s.toList []).length

/-! ## Context detector (`core.py`, `AuditAgent._detect_context`)

The filesystem is modelled as the list of paths (relative to the scanned
root) whose existence checks succeed. -/

/-- Detected project context (`core.ProjectContext`). -/
structure ProjectContext where
  languages : List String
  frameworks : List String
  cloud_providers : List String
  maturity : String
  working_directory : String
deriving DecidableEq, Repr, Inhabited

/-- Embedding of `AuditAgent._detect_context`: marker-file based detection
of languages, cloud providers and maturity.  `fs` is the set of paths,
relative to `root`, that exist. -/
def detectContext (root : String) (fs : List String) : ProjectContext :=
  let languages :=
    (if fs.contains "requirements.txt" || fs.contains "pyproject.toml" then ["python"] else []) ++
    (if fs.contains "package.json" then
      (if fs.contains "tsconfig.json" then ["typescript"] else ["javascript"]) else []) ++
    (if fs.contains "go.mod" then ["go"] else []) ++
    (if fs.contains "pom.xml" || fs.contains "build.gradle" then ["java"] else []) ++
    (if fs.contains "Cargo.toml" then ["rust"] else [])
  let cloud_providers :=
    (if fs.contains "terraform" then ["aws"] else []) ++
    (if fs.contains "vercel.json" then ["vercel"] else [])
  let maturity :=
    if fs.contains ".github/workflows" then
      (if fs.contains "Dockerfile" then "production" else "pre-production")
    else "mvp"
  { languages := languages
    frameworks := []
    cloud_providers := cloud_providers
    maturity := maturity
    working_directory := root }

/-! ## Rule catalog loader and rule selector (`rules_parser.py`)

The index file `.claude/rules/index.json` is modelled as an optional
`RulesIndex` (`none` when the file does not exist).  The JSON object
`rules` has a `base` list of entries and `languages` / `frameworks` /
`cloud` maps of sub-key to entry lists, modelled as association lists.
The required JSON key `name` becomes a plain field; the legacy keys
`path` and `file` and the optional `estimatedTokens` become `Option`
fields (keys that may be absent). -/

/-- One raw entry of the rules index. -/
structure RuleEntry where
  name : String
  path : Option String
  file : Option String
  estimatedTokens : Option Nat
deriving DecidableEq, Repr, Inhabited

/-- The parsed shape of `.claude/rules/index.json` under its `rules` key. -/
structure RulesIndex where
  base : List RuleEntry
  languages : List (String × List RuleEntry)
  frameworks : List (String × List RuleEntry)
  cloud : List (String × List RuleEntry)
deriving DecidableEq, Repr, Inhabited

/-- Embedding of `rules_parser.RuleMetadata` (a dataclass).  The dataclass
defaults `maturity` to all three tiers and `topics` to the empty list. -/
structure RuleMetadata where
  name : String
  path : String
  category : String
  language : Option String
  framework : Option String
  cloud_provider : Option String
  topics : List String
  maturity : List String
  estimated_tokens : Nat
deriving DecidableEq, Repr, Inhabited

/-- The default maturity range of a rule record. -/
def defaultMaturity : List String :=
  ["mvp", "pre-production", "production"]

/-- Embedding of the expression `rule.get("path") or rule.get("file", "")`:
the `path` value when present and nonempty (Python truthiness), otherwise
the `file` value when present, otherwise the empty string.  Note that an
entry carrying neither key silently yields `""`. -/
def rulePathOf (e : RuleEntry) : String :=
  let p := e.path.getD ""
  if p = "" then e.file.getD "" else p

/-- The fixed topic dictionary of `RulesParser._extract_topics_from_path`. -/
def topicKeywords : List (String × List String) :=
  [("security", ["security", "auth", "jwt", "oauth"]),
   ("testing", ["testing", "test", "pytest", "jest"]),
   ("quality", ["quality", "standards", "style"]),
   ("performance", ["performance", "optimization", "cache"]),
   ("api", ["api", "rest", "graphql", "endpoint"]),
   ("database", ["database", "db", "sql", "query"]),
   ("deployment", ["deployment", "deploy", "ci", "cd"])]

/-- Embedding of `RulesParser._extract_topics_from_path`: every topic of
the fixed dictionary one of whose keywords occurs as a substring of the
lower-cased filename stem of the path. -/
def extractTopicsFromPath (rulePath : String) : List String :=
  let filename := toLowerStr (pathStem rulePath)
  (topicKeywords.filter (fun tk => tk.2.any (fun kw => strIn kw filename))).map (fun tk => tk.1)

/-- Normalization of one base index entry into a `RuleMetadata`. -/
def mkBaseRule (e : RuleEntry) : RuleMetadata :=
  { name := e.name
    path := rulePathOf e
    category := "base"
    language := none
    framework := none
    cloud_provider := none
    topics := extractTopicsFromPath (rulePathOf e)
    maturity := defaultMaturity
    estimated_tokens := e.estimatedTokens.getD 800 }

/-- Normalization of one language index entry. -/
def mkLangRule (lang : String) (e : RuleEntry) : RuleMetadata :=
  { name := e.name
    path := rulePathOf e
    category := "language"
    language := some lang
    framework := none
    cloud_provider := none
    topics := extractTopicsFromPath (rulePathOf e)
    maturity := defaultMaturity
    estimated_tokens := e.estimatedTokens.getD 1000 }

/-- Normalization of one framework index entry. -/
def mkFrameworkRule (fw : String) (e : RuleEntry) : RuleMetadata :=
  { name := e.name
    path := rulePathOf e
    category := "framework"
    language := none
    framework := some fw
    cloud_provider := none
    topics := extractTopicsFromPath (rulePathOf e)
    maturity := defaultMaturity
    estimated_tokens := e.estimatedTokens.getD 1200 }

/-- Normalization of one cloud index entry. -/
def mkCloudRule (cp : String) (e : RuleEntry) : RuleMetadata :=
  { name := e.name
    path := rulePathOf e
    category := "cloud"
    language := none
    framework := none
    cloud_provider := some cp
    topics := extractTopicsFromPath (rulePathOf e)
    maturity := defaultMaturity
    estimated_tokens := e.estimatedTokens.getD 1400 }

/-- Walks a keyed map of entry lists in order, normalizing every entry
with the sub-key it is listed under (the nested `for` loops of
`parse_index`). -/
def normalizeKeyed (f : String → RuleEntry → RuleMetadata) :
    List (String × List RuleEntry) → List RuleMetadata
  | [] => []
  | (k, rs) :: rest => rs.map (f k) ++ normalizeKeyed f rest

/-- The four category buckets returned by `RulesParser.parse_index`. -/
structure ParsedRules where
  base : List RuleMetadata
  language : List RuleMetadata
  framework : List RuleMetadata
  cloud : List RuleMetadata
deriving DecidableEq, Repr, Inhabited

/-- Embedding of `RulesParser.parse_index`.  A missing index file
(`none`) yields four empty buckets; otherwise every entry is normalized
into its bucket.  The Python code raises only for an entry without a
`name` key (a `KeyError` on `rule["name"]`), which the embedding models by
making `name` a required field; an entry missing both `path` and `file`
does not raise and is normalized with an empty path (see `rulePathOf`). -/
def parseIndex (idx : Option RulesIndex) : ParsedRules :=
  match idx with
  | none => { base := [], language := [], framework := [], cloud := [] }
  | some i =>
    { base := i.base.map mkBaseRule
      language := normalizeKeyed mkLangRule i.languages
      framework := normalizeKeyed mkFrameworkRule i.frameworks
      cloud := normalizeKeyed mkCloudRule i.cloud }

/-- The fixed allow-list of always-selected base rules. -/
def criticalBase : List String :=
  ["code-quality", "security-principles", "git-workflow"]

/-- Python `rule.language in project_languages` where the left side is an
`Optional[str]`: `None` is never a member of a list of strings. -/
def optIn (v : Option String) (l : List String) : Bool :=
  match v with
  | some s => l.contains s
  | none => false

/-- The selected rules of `generate_selection_report`, in selection order:
critical base rules, then matching language, framework and cloud rules. -/
def selectedOf (pr : ParsedRules) (langs fws clouds : List String) : List RuleMetadata :=
  pr.base.filter (fun r => criticalBase.contains (pathStem r.path)) ++
  pr.language.filter (fun r => optIn r.language langs) ++
  pr.framework.filter (fun r => optIn r.framework fws) ++
  pr.cloud.filter (fun r => optIn r.cloud_provider clouds)

/-- One entry of the `selection_reasoning` list: rule name, reason, score. -/
structure SelectionReason where
  rule : String
  reason : String
  score : Nat
deriving DecidableEq, Repr, Inhabited

/-- The `selection_reasoning` entries built alongside the selection. -/
def reasoningOf (pr : ParsedRules) (langs fws clouds : List String) : List SelectionReason :=
  (pr.base.filter (fun r => criticalBase.contains (pathStem r.path))).map
    (fun r => { rule := r.name, reason := "Critical base rule", score := 100 }) ++
  (pr.language.filter (fun r => optIn r.language langs)).map
    (fun r => { rule := r.name,
                reason := "Matches project language: " ++ r.language.getD "", score := 90 }) ++
  (pr.framework.filter (fun r => optIn r.framework fws)).map
    (fun r => { rule := r.name,
                reason := "Matches project framework: " ++ r.framework.getD "", score := 90 }) ++
  (pr.cloud.filter (fun r => optIn r.cloud_provider clouds)).map
    (fun r => { rule := r.name,
                reason := "Matches cloud provider: " ++ r.cloud_provider.getD "", score := 85 })

/-- Embedding of the dictionary returned by `generate_selection_report`.
`selection_efficiency` keeps the numeric percentage
`selected / available * 100` as a rational (the Python code formats it
with one decimal place, or the literal `"0%"` for an empty catalog, which
corresponds to the value `0` here). -/
structure SelectionReport where
  total_rules_available : Nat
  total_rules_selected : Nat
  total_estimated_tokens : Nat
  selection_efficiency : ℚ
  selected_rules : List RuleMetadata
  selection_reasoning : List SelectionReason
  breakdown_base : Nat
  breakdown_language : Nat
  breakdown_framework : Nat
  breakdown_cloud : Nat
  project_languages : List String
  project_frameworks : List String
  project_cloud : List String
  project_maturity : String
deriving DecidableEq, Repr, Inhabited

/-- Embedding of `RulesParser.generate_selection_report` applied to an
already parsed catalog (the Python method first calls `parse_index`; the
composition is `generateSelectionReport (parseIndex idx) ...`). -/
def generateSelectionReport (pr : ParsedRules) (langs fws clouds : List String)
    (mat : String) : SelectionReport :=
  let sel := selectedOf pr langs fws clouds
  let avail := pr.base.length + pr.language.length + pr.framework.length + pr.cloud.length
  { total_rules_available := avail
    total_rules_selected := sel.length
    total_estimated_tokens := (sel.map (fun r => r.estimated_tokens)).sum
    selection_efficiency := if 0 < avail then ((sel.length : ℚ) / (avail : ℚ)) * 100 else 0
    selected_rules := sel
    selection_reasoning := reasoningOf pr langs fws clouds
    breakdown_base := (sel.filter (fun r => r.category == "base")).length
    breakdown_language := (sel.filter (fun r => r.category == "language")).length
    breakdown_framework := (sel.filter (fun r => r.category == "framework")).length
    breakdown_cloud := (sel.filter (fun r => r.category == "cloud")).length
    project_languages := langs
    project_frameworks := fws
    project_cloud := clouds
    project_maturity := mat }

/-! ## Content consistency analyzer (`mece_analyzer.py`)

Documents are profiled into `ContentAnalysis` values; Python `set`
becomes `Finset String`.  The document corpus is modelled as a list of
`CorpusFile` values carrying the path relative to the repository root,
the category string assigned by the directory walk of
`_analyze_all_files` (`"base"`, `"language/<x>"`, `"framework/<x>"`,
`"cloud/<x>"`), and `none` as content when opening or decoding the file
fails. -/

/-- Embedding of the `ContentAnalysis` dataclass. -/
structure ContentAnalysis where
  file_path : String
  category : String
  topics : Finset String
  keywords : Finset String
  headings : List String
  code_blocks : List String
  word_count : Nat
deriving DecidableEq, Inhabited

/-- Embedding of the `OverlapReport` dataclass.  `overlap_score` keeps the
exact rational; the Python code stores `round(score, 2)`, a
presentation-only rounding. -/
structure OverlapReport where
  file1 : String
  file2 : String
  overlap_score : ℚ
  common_keywords : List String
  common_topics : List String
deriving DecidableEq, Inhabited

/-- Embedding of the `GapReport` dataclass. -/
structure GapReport where
  category : String
  missing_topics : List String
  recommendation : String
deriving DecidableEq, Repr, Inhabited

/-- Rebuilds the text around fenced code blocks, dropping the fenced
parts: the effect of `re.sub` with pattern three-backticks, non-greedy
body, three-backticks (DOTALL).  On the segments produced by splitting at
every fence marker, consecutive pairs of markers delimit a dropped
segment, and a final unmatched marker is kept verbatim. -/
def dropCodeSegs : List String → List String
  | [] => []
  | [s] => [s]
  | [s, t] => [s ++ "```" ++ t]
  | s :: _ :: rest => s :: dropCodeSegs rest

/-- Embedding of the code-block removal step of `_extract_keywords`. -/
def removeCodeBlocks (s : String) : String :=
  intercalateStr "" (dropCodeSegs (splitOnStr s "```"))

/-- The segments lying between consecutive fence-marker pairs. -/
def fencedSegs : List String → List String
  | [] => []
  | [_] => []
  | _ :: t :: rest => t :: fencedSegs rest

/-- The capture of one fenced segment under the pattern used by
`_analyze_file`: an optional word-character language tag, a newline, then
the captured body running to the closing fence. -/
def fencedCapture (seg : String) : Option String :=
  match splitOnStr seg "\n" with
  | [] => none
  | [_] => none
  | tag :: rest =>
    if tag.toList.all isWordChar then some (intercalateStr "\n" rest) else none

/-- Embedding of the code-block extraction of `_analyze_file` for
well-formed (aligned) fences, the corpus format of the specification. -/
def extractCodeBlocks (s : String) : List String :=
  (fencedSegs (splitOnStr s "```")).filterMap fencedCapture

/-- The eight fixed keyword pattern groups of `_extract_keywords`.  Each
regex is an alternation of word-character keywords between two word
boundaries, matched case-insensitively: a keyword matches exactly when it
occurs as a maximal word-character run of the lower-cased text. -/
def keywordGroups : List (List String) :=
  [["async", "await", "promise"],
   ["test", "testing", "pytest", "jest"],
   ["security", "authentication", "authorization"],
   ["api", "endpoint", "route", "handler"],
   ["database", "query", "sql", "orm"],
   ["deployment", "ci", "cd", "docker"],
   ["error", "exception", "logging"],
   ["performance", "optimization", "cache"]]

/-- Embedding of `MECEAnalyzer._extract_keywords`: code blocks are removed
first, then every keyword of the fixed groups occurring as a word of the
remaining text is collected (lower-cased, as a set). -/
def extractKeywords (content : String) : Finset String :=
  let ws := (wordsOf (removeCodeBlocks content)).map toLowerStr
  keywordGroups.flatten.foldl (fun s k => if ws.contains k then insert k s else s) ∅

/-- One line matched against the heading pattern (hashes, mandatory
whitespace, nonempty rest).  This is the per-line reading of the
MULTILINE regex of `_analyze_file`. -/
def headingOf (line : String) : Option String :=
  let cs := line.toList
  let hashes := cs.takeWhile (fun c => c = '#')
  let rest := cs.drop hashes.length
  let ws := rest.takeWhile (fun c => c.isWhitespace)
  let body := rest.drop ws.length
  if hashes.isEmpty || ws.isEmpty || body.isEmpty then none
  else some (String.mk body)

/-- Embedding of the heading extraction of `_analyze_file`. -/
def extractHeadings (content : String) : List String :=
  (splitOnStr content "\n").filterMap headingOf

/-- Normalization of one heading in `_extract_topics`: lower-case, strip
surrounding whitespace, then drop every character that is not a word
character, whitespace or a hyphen. -/
def normalizeHeading (h : String) : String :=
  String.mk ((trimStr (toLowerStr h)).toList.filter
    (fun c => isWordChar c || c.isWhitespace || c = '-'))

/-- Embedding of `MECEAnalyzer._extract_topics`: the normalized filename
stem plus every normalized heading. -/
def extractTopics (filename : String) (headings : List String) : Finset String :=
  headings.foldl (fun s h => insert (normalizeHeading h) s)
    {(replaceStr (toLowerStr filename) "-" " ")}

/-- Embedding of `MECEAnalyzer._analyze_file` on already-read content. -/
def analyzeFile (relPath category content : String) : ContentAnalysis :=
  let headings := extractHeadings content
  { file_path := relPath
    category := category
    topics := extractTopics (pathStem relPath) headings
    keywords := extractKeywords content
    headings := headings
    code_blocks := extractCodeBlocks content
    word_count := countWords content }

/-- One file of the document corpus as seen by `_analyze_all_files`;
`content = none` models an open/decode failure of that file. -/
structure CorpusFile where
  path : String
  category : String
  content : Option String
deriving DecidableEq, Inhabited

/-- Embedding of `MECEAnalyzer._analyze_all_files`: every corpus file is
profiled in order; the first file whose read fails raises, aborting the
whole walk (there is no per-file exception handling in the source), and
the raised error carries that file path. -/
def analyzeAllFiles : List CorpusFile → Except String (List ContentAnalysis)
  | [] => .ok []
  | f :: rest =>
    match f.content with
    | none => .error f.path
    | some c =>
      match analyzeAllFiles rest with
      | .error e => .error e
      | .ok as => .ok (analyzeFile f.path f.category c :: as)

/-- The coarse pre-filter of `_find_overlaps`: more than 3 shared
keywords or more than 2 shared topics. -/
def preFilterPair (a1 a2 : ContentAnalysis) : Bool :=
  3 < (a1.keywords ∩ a2.keywords).card || 2 < (a1.topics ∩ a2.topics).card

/-- The overlap score of `_find_overlaps`: mean of the shared-keyword
ratio and the shared-topic ratio.  Python divides by
`max(len(keywords1), len(keywords2))` and `max(len(topics1), len(topics2))`
without a zero guard; a zero denominator raises `ZeroDivisionError`,
modelled as `none`. -/
def overlapScore (a1 a2 : ContentAnalysis) : Option ℚ :=
  let mk := max a1.keywords.card a2.keywords.card
  let mt := max a1.topics.card a2.topics.card
  if mk = 0 then none
  else if mt = 0 then none
  else some (((((a1.keywords ∩ a2.keywords).card : ℚ) / (mk : ℚ)) +
              (((a1.topics ∩ a2.topics).card : ℚ) / (mt : ℚ))) / 2)

/-- The report recorded for one overlapping pair. -/
def mkOverlapReport (a1 a2 : ContentAnalysis) (s : ℚ) : OverlapReport :=
  { file1 := a1.file_path
    file2 := a2.file_path
    overlap_score := s
    common_keywords := (sortedList (a1.keywords ∩ a2.keywords)).take 10
    common_topics := (sortedList (a1.topics ∩ a2.topics)).take 5 }

/-- All ordered position pairs of the double loop of `_find_overlaps`:
each element against every later element, in loop order. -/
def pairUps : List ContentAnalysis → List (ContentAnalysis × ContentAnalysis)
  | [] => []
  | a :: rest => rest.map (fun b => (a, b)) ++ pairUps rest

/-- The body of the double loop of `_find_overlaps` over the listed
pairs: pairs of different categories are skipped, pairs passing the
pre-filter have their score computed (a zero denominator aborts with
`ZeroDivisionError`, discarding all reports), and a score above 0.3 is
recorded. -/
def overlapReportsOf : List (ContentAnalysis × ContentAnalysis) →
    Except String (List OverlapReport)
  | [] => .ok []
  | (a, b) :: rest =>
    if a.category = b.category then
      if preFilterPair a b then
        match overlapScore a b with
        | none => .error "ZeroDivisionError"
        | some s =>
          if (3 : ℚ) / 10 < s then
            match overlapReportsOf rest with
            | .error e => .error e
            | .ok tail => .ok (mkOverlapReport a b s :: tail)
          else overlapReportsOf rest
      else overlapReportsOf rest
    else overlapReportsOf rest

/-- Embedding of `MECEAnalyzer._find_overlaps`: the recorded reports,
sorted by descending overlap score. -/
def findOverlaps (analyses : List ContentAnalysis) : Except String (List OverlapReport) :=
  match overlapReportsOf (pairUps analyses) with
  | .error e => .error e
  | .ok rs => .ok (rs.insertionSort (fun x y => y.overlap_score ≤ x.overlap_score))

/-- Expected base-category topics (`expected_topics["base"]`). -/
def expectedTopicsBase : List String :=
  ["code-quality", "security", "testing", "git", "architecture",
   "refactoring", "documentation", "error-handling", "logging"]

/-- Expected per-language topics (`expected_topics["language"]`). -/
def expectedTopicsLanguage : List (String × List String) :=
  [("python", ["coding-standards", "testing", "async", "packaging"]),
   ("typescript", ["coding-standards", "testing", "types", "async"]),
   ("go", ["coding-standards", "testing", "concurrency", "error-handling"]),
   ("java", ["coding-standards", "testing", "spring", "design-patterns"]),
   ("rust", ["coding-standards", "testing", "ownership", "error-handling"])]

/-- Expected per-framework topics (`expected_topics["framework"]`). -/
def expectedTopicsFramework : List (String × List String) :=
  [("fastapi", ["routing", "async", "testing", "validation", "auth"]),
   ("django", ["models", "views", "testing", "authentication", "admin"]),
   ("react", ["components", "hooks", "testing", "state", "routing"]),
   ("nextjs", ["routing", "ssr", "api-routes", "testing", "optimization"])]

/-- Expected per-cloud topics (`expected_topics["cloud"]`). -/
def expectedTopicsCloud : List (String × List String) :=
  [("aws", ["iam", "security", "deployment", "monitoring", "cost-optimization"]),
   ("vercel", ["deployment", "environment", "performance", "preview"])]

/-- The union of the topic sets of a list of profiles. -/
def unionTopics (l : List ContentAnalysis) : Finset String :=
  l.foldl (fun s a => s ∪ a.topics) ∅

/-- Python joins a topic set with spaces before the substring test; set
iteration order is unspecified there, and the embedding fixes the sorted
order.  No proven statement depends on the chosen order. -/
def joinTopics (s : Finset String) : String :=
  intercalateStr " " (sortedList s)

/-- The sub-key of a `language/<x>` category string
(`analysis.category.split("/")[1]`). -/
def langKey (c : String) : String :=
  (splitOnStr c "/").getD 1 ""

/-- The profiles grouped under one language by `_find_gaps`. -/
def analysesForLang (analyses : List ContentAnalysis) (lang : String) :
    List ContentAnalysis :=
  analyses.filter (fun a => startsWithStr a.category "language/" && langKey a.category == lang)

/-- The base-category part of `_find_gaps`: every expected base topic not
occurring (hyphens replaced by spaces) as a substring of the joined base
topic union is flagged. -/
def baseGaps (analyses : List ContentAnalysis) : List GapReport :=
  let baseTopics := unionTopics (analyses.filter (fun a => a.category == "base"))
  expectedTopicsBase.filterMap (fun e =>
    if strIn (replaceStr e "-" " ") (joinTopics baseTopics) then none
    else some { category := "base"
                missing_topics := [e]
                recommendation := "Create base/" ++ e ++ ".md to cover " ++
                  replaceStr e "-" " " ++ " best practices" })

/-- The gap reports for one language of the expected-topics table. -/
def langGapsFor (analyses : List ContentAnalysis) (lang : String)
    (expected : List String) : List GapReport :=
  let las := analysesForLang analyses lang
  if las.isEmpty then
    [{ category := "language/" ++ lang
       missing_topics := expected
       recommendation := "Add " ++ lang ++ " language support with rules covering " ++
         intercalateStr ", " expected }]
  else
    let lt := joinTopics (unionTopics las)
    expected.filterMap (fun e =>
      if strIn (replaceStr e "-" " ") lt then none
      else some { category := "language/" ++ lang
                  missing_topics := [e]
                  recommendation := "Add languages/" ++ lang ++ "/" ++ e ++ ".md" })

/-- Embedding of `MECEAnalyzer._find_gaps`.  Note that the source only
walks the base topic list and the language table; the framework and cloud
tables of `expected_topics` are never consulted. -/
def findGaps (analyses : List ContentAnalysis) : List GapReport :=
  baseGaps analyses ++
  (expectedTopicsLanguage.map (fun p => langGapsFor analyses p.1 p.2)).flatten

/-- The numeric MECE compliance score:
`max(0, 100 - (overlaps * 2 + gaps * 3))`. -/
def meceScoreValue (overlaps gaps : Nat) : Int :=
  max 0 (100 - ((overlaps : Int) * 2 + (gaps : Int) * 3))

/-- Embedding of `MECEAnalyzer._calculate_mece_score` (the `total_files`
argument is unused in the source as well). -/
def calculateMeceScore (overlaps gaps totalFiles : Nat) : String :=
  let score := meceScoreValue overlaps gaps
  if 90 ≤ score then toString score ++ "% - Excellent"
  else if 70 ≤ score then toString score ++ "% - Good"
  else if 50 ≤ score then toString score ++ "% - Fair"
  else toString score ++ "% - Needs Improvement"

/-- Incrementing one key of an association-list counter, preserving first
insertion order (Python `defaultdict(int)` update). -/
def bumpCount : List (String × Nat) → String → List (String × Nat)
  | [], k => [(k, 1)]
  | (k', n) :: rest, k =>
    if k' = k then (k', n + 1) :: rest else (k', n) :: bumpCount rest k

/-- Per-top-level-category file counts of `_generate_summary`. -/
def categoryCounts (analyses : List ContentAnalysis) : List (String × Nat) :=
  analyses.foldl (fun acc a => bumpCount acc ((splitOnStr a.category "/").getD 0 "")) []

/-- Embedding of the summary dictionary of `_generate_summary`. -/
structure MECESummary where
  total_files : Nat
  by_category : List (String × Nat)
  high_overlap_count : Nat
  critical_gaps : Nat
  mece_score : String
deriving DecidableEq, Repr, Inhabited

/-- Embedding of `MECEAnalyzer._generate_summary`. -/
def generateSummary (analyses : List ContentAnalysis) (overlaps : List OverlapReport)
    (gaps : List GapReport) : MECESummary :=
  { total_files := analyses.length
    by_category := categoryCounts analyses
    high_overlap_count := (overlaps.filter (fun o => decide ((1 : ℚ) / 2 < o.overlap_score))).length
    critical_gaps := (gaps.filter (fun g => g.category == "base")).length
    mece_score := calculateMeceScore overlaps.length gaps.length analyses.length }

/-- Embedding of the result dictionary of `MECEAnalyzer.analyze`. -/
structure MECEResult where
  files_analyzed : Nat
  total_overlaps : Nat
  total_gaps : Nat
  overlap_reports : List OverlapReport
  gap_reports : List GapReport
  summary : MECESummary
deriving DecidableEq, Inhabited

/-- Embedding of `MECEAnalyzer.analyze`: profile all files, find overlaps
and gaps, assemble the result.  A file read failure or a zero-denominator
overlap score propagates as an error. -/
def analyze (corpus : List CorpusFile) : Except String MECEResult :=
  match analyzeAllFiles corpus with
  | .error e => .error e
  | .ok analyses =>
    match findOverlaps analyses with
    | .error e => .error e
    | .ok overlaps =>
      let gaps := findGaps analyses
      .ok { files_analyzed := analyses.length
            total_overlaps := overlaps.length
            total_gaps := gaps.length
            overlap_reports := overlaps.take 10
            gap_reports := gaps
            summary := generateSummary analyses overlaps gaps }

/-! ## Audit orchestrator (`core.py`, `AuditAgent.run`)

The orchestrator is a pure function of the configuration and of the
inputs the stages read: the marker-path list, the optional rules index,
the document corpus and the archive-directory listing.  The `timestamp`
is `datetime.now().isoformat()`, passed in as a value.  The Python method
also merges informational AGENTS.md reference counts into the rules
report dictionary (`parse_agents_md`); that companion routine is
presentation-only and outside every verified statement, so the rules
report field holds the `SelectionReport` itself. -/

/-- Embedding of the `AuditConfig` dataclass with its defaults. -/
structure AuditConfig where
  depth : String
  enable_citations : Bool := true
  enable_beads_generation : Bool := false
  enable_pr_suggestions : Bool := true
  max_tasks_per_finding : Nat := 3
deriving DecidableEq, Repr, Inhabited

/-- The fixed placeholder returned by `AuditAgent._run_accuracy_audit`. -/
structure AccuracyAudit where
  files_audited : Nat
  issues_found : Nat
  status : String
deriving DecidableEq, Repr, Inhabited

/-- Embedding of `AuditAgent._run_accuracy_audit`. -/
def runAccuracyAudit : AccuracyAudit :=
  { files_audited := 0, issues_found := 0, status := "not_implemented_yet" }

/-- One recommendation of the file-disposition pass. -/
structure DispositionRecommendation where
  file : String
  status : String
  action : String
deriving DecidableEq, Repr, Inhabited

/-- Embedding of the dictionary returned by `AuditAgent._analyze_disposition`. -/
structure FileDisposition where
  total_files : Nat
  redundant : Nat
  obsolete : Nat
  unused : Nat
  active : Nat
  recommendations : List DispositionRecommendation
deriving DecidableEq, Repr, Inhabited

/-- Embedding of `AuditAgent._analyze_disposition`; `archiveFiles` is the
markdown listing of the `archive` directory (empty when absent). -/
def analyzeDisposition (archiveFiles : List String) : FileDisposition :=
  { total_files := archiveFiles.length
    redundant := archiveFiles.length
    obsolete := archiveFiles.length
    unused := 0
    active := 0
    recommendations := (archiveFiles.take 5).map
      (fun f => { file := f, status := "obsolete", action := "delete" }) }

/-- Embedding of the `AuditResult` dataclass.  Stage outputs that did not
run stay `none`, exactly as the dataclass defaults them.  The
`beads_tasks` and `patch_suggestions` fields are never populated by
`run`; their payload types are placeholders. -/
structure AuditResult where
  timestamp : String
  context : ProjectContext
  rules_selection_report : SelectionReport
  mece_content_map : Option MECEResult
  accuracy_audit : Option AccuracyAudit
  file_disposition : Option FileDisposition
  beads_tasks : Option (List String)
  patch_suggestions : Option String
deriving DecidableEq, Inhabited

/-- Embedding of `AuditAgent.run`: context detection and rule selection
always run; the MECE content map and the file-disposition pass run when
the depth is listed in `["standard", "full"]`; the accuracy audit runs
when the depth equals `"full"` and citations are enabled.  An exception
raised by the MECE stage propagates. -/
def runAudit (cfg : AuditConfig) (timestamp root : String) (fs : List String)
    (idx : Option RulesIndex) (corpus : List CorpusFile)
    (archiveFiles : List String) : Except String AuditResult :=
  let ctx := detectContext root fs
  let rulesReport := generateSelectionReport (parseIndex idx)
    ctx.languages ctx.frameworks ctx.cloud_providers ctx.maturity
  let meceStep : Except String (Option MECEResult) :=
    if ["standard", "full"].contains cfg.depth then
      match analyze corpus with
      | .error e => .error e
      | .ok m => .ok (some m)
    else .ok none
  match meceStep with
  | .error e => .error e
  | .ok meceMap =>
    .ok { timestamp := timestamp
          context := ctx
          rules_selection_report := rulesReport
          mece_content_map := meceMap
          accuracy_audit :=
            if cfg.depth == "full" && cfg.enable_citations then some runAccuracyAudit else none
          file_disposition :=
            if ["standard", "full"].contains cfg.depth then some (analyzeDisposition archiveFiles)
            else none
          beads_tasks := none
          patch_suggestions := none }

/-! ## Concrete fixtures and helper lemmas -/

/-- Extracts the payload of a successful run (used to name concrete
results in closed statements). -/
def exceptOk {α : Type} [Inhabited α] : Except String α → α
  | .ok a => a
  | .error _ => default

/-- A document whose only content is three headings; it matches no
keyword pattern, so its keyword set is empty. -/
def sharedHeadingsDoc : String :=
  "# Shared One\n# Shared Two\n# Shared Three\n"

/-- A two-document corpus of distinct base documents with identical
headings and no keyword matches. -/
def headingOnlyCorpus : List CorpusFile :=
  [{ path := "base/alpha.md", category := "base", content := some sharedHeadingsDoc },
   { path := "base/beta.md", category := "base", content := some sharedHeadingsDoc }]

/-- The analysis result of the empty corpus. -/
def emptyCorpusResult : MECEResult :=
  exceptOk (analyze [])

/-- An index entry carrying neither the `path` nor the `file` key. -/
def brokenEntry : RuleEntry :=
  { name := "Broken Rule", path := none, file := none, estimatedTokens := none }

/-- An index holding exactly one base entry. -/
def singletonIndex (e : RuleEntry) : RulesIndex :=
  { base := [e], languages := [], frameworks := [], cloud := [] }

theorem filter_length_mono {α : Type} (l : List α) (p q : α → Bool)
    (h : ∀ a, p a = true → q a = true) :
    (l.filter p).length ≤ (l.filter q).length := by
  induction l with
  | nil => simp
  | cons x t ih =>
    by_cases hp : p x = true
    · have hq := h x hp
      simp [List.filter_cons, hp, hq]
      exact ih
    · simp only [List.filter_cons]
      simp only [Bool.not_eq_true] at hp
      simp [hp]
      cases hq : q x
      · simp [ih]
      · simp
        exact Nat.le_succ_of_le ih

theorem normalizeKeyed_category (f : String → RuleEntry → RuleMetadata) (c : String)
    (hf : ∀ k e, (f k e).category = c) :
    ∀ (l : List (String × List RuleEntry)) r, r ∈ normalizeKeyed f l → r.category = c := by
  intro l
  induction l with
  | nil => intro r hr; simp [normalizeKeyed] at hr
  | cons p rest ih =>
    intro r hr
    simp only [normalizeKeyed, List.mem_append, List.mem_map] at hr
    rcases hr with ⟨e, _, he⟩ | hr
    · rw [← he]; exact hf p.1 e
    · exact ih r hr

end AuditAgent

namespace AuditAgent

/-! ## Claim theorems -/

/-- C1 counterexample: fed an index whose single base entry has neither
the `path` nor the `file` key, `parseIndex` does not fail: it returns a
`RuleMetadata` whose path is the empty string, exactly what the claim
says does not happen. -/
theorem parse_index_missing_keys_counterexample :
    (parseIndex (some (singletonIndex brokenEntry))).base.map RuleMetadata.path = [""] ∧
    (parseIndex (some (singletonIndex brokenEntry))).base.map RuleMetadata.name =
      ["Broken Rule"] := by
  decide

/-- C1 (amended): for every rule-index entry that has neither a `path`
key nor a `file` key, `parse_index` does not raise a schema-validation
failure; it silently produces a `RuleMetadata` carrying the entry name
and an empty path. -/
theorem parse_index_empty_path_default (e : RuleEntry)
    (h1 : e.path = none) (h2 : e.file = none) :
    (parseIndex (some (singletonIndex e))).base = [mkBaseRule e] ∧
    (mkBaseRule e).path = "" ∧ (mkBaseRule e).name = e.name := by
  refine ⟨rfl, ?_, rfl⟩
  simp [mkBaseRule, rulePathOf, h1, h2]

/-- C1 witness: the amended statement at the concrete broken entry. -/
theorem parse_index_empty_path_default_witness :
    (parseIndex (some (singletonIndex brokenEntry))).base = [mkBaseRule brokenEntry] ∧
    (mkBaseRule brokenEntry).path = "" ∧ (mkBaseRule brokenEntry).name = "Broken Rule" :=
  parse_index_empty_path_default brokenEntry rfl rfl

/-- C2: the overlap-score computation is not total on profile pairs
passing the coarse pre-filter.  Two well-formed base documents holding
the same three headings and no keyword-pattern matches produce profiles
with empty keyword sets that pass the pre-filter through the topic
branch; the keyword-overlap division then divides by
`max(len(keywords1), len(keywords2)) = 0` and the whole analysis raises
`ZeroDivisionError`. -/
theorem overlap_score_zero_division :
    (analyzeFile "base/alpha.md" "base" sharedHeadingsDoc).category =
      (analyzeFile "base/beta.md" "base" sharedHeadingsDoc).category ∧
    preFilterPair (analyzeFile "base/alpha.md" "base" sharedHeadingsDoc)
      (analyzeFile "base/beta.md" "base" sharedHeadingsDoc) = true ∧
    (analyzeFile "base/alpha.md" "base" sharedHeadingsDoc).keywords = ∅ ∧
    overlapScore (analyzeFile "base/alpha.md" "base" sharedHeadingsDoc)
      (analyzeFile "base/beta.md" "base" sharedHeadingsDoc) = none ∧
    analyze headingOnlyCorpus = .error "ZeroDivisionError" := by
  decide

/-- C3 counterexample: with only `requirements.txt` present the detected
language set is `{"python"}` as claimed, but the maturity value is the
string `"mvp"`, not `"prototype"`. -/
theorem detect_context_python_counterexample :
    (detectContext "." ["requirements.txt"]).languages = ["python"] ∧
    (detectContext "." ["requirements.txt"]).maturity ≠ "prototype" := by
  decide

/-- C3 (amended): for a root directory in which only the Python
dependency manifest `requirements.txt` is present, context detection
returns languages `{"python"}` and maturity `"mvp"` (the code uses the
label `"mvp"` for the lowest tier, which the specification calls
`"prototype"`). -/
theorem detect_context_python_only (root : String) :
    detectContext root ["requirements.txt"] =
      { languages := ["python"], frameworks := [], cloud_providers := [],
        maturity := "mvp", working_directory := root } := by
  rfl

/-- C5 counterexample: with a corpus whose middle document is unreadable,
the whole analysis aborts with that document path; no result (and in
particular no skipped-document record and no analysis of the other
documents) is produced.  The result type itself, mirroring the source,
has no skipped-documents field. -/
theorem unreadable_document_aborts_counterexample :
    analyze [{ path := "base/good1.md", category := "base", content := some "# A\n" },
             { path := "base/bad.md", category := "base", content := none },
             { path := "base/good2.md", category := "base", content := some "# B\n" }] =
      .error "base/bad.md" := by
  decide

/-- C5 (amended): a read failure on one document is not isolated: the
first unreadable document of the corpus aborts the whole analysis, which
terminates with that document path as the propagated error instead of a
result recording it as skipped. -/
theorem unreadable_document_aborts (pre : List CorpusFile) (bad : CorpusFile)
    (rest : List CorpusFile) (hpre : ∀ f ∈ pre, f.content.isSome = true)
    (hbad : bad.content = none) :
    analyze (pre ++ bad :: rest) = .error bad.path := by
  have core : analyzeAllFiles (pre ++ bad :: rest) = .error bad.path := by
    induction pre with
    | nil =>
      simp only [List.nil_append, analyzeAllFiles, hbad]
    | cons f t ih =>
      have hf : f.content.isSome = true := hpre f (List.mem_cons_self f t)
      rcases Option.isSome_iff_exists.mp hf with ⟨c, hc⟩
      have ht : ∀ g ∈ t, g.content.isSome = true :=
        fun g hg => hpre g (List.mem_cons_of_mem f hg)
      rw [List.cons_append]
      simp only [analyzeAllFiles, hc]
      rw [ih ht]
  simp only [analyze, core]

/-- C5 witness: the amended statement at a concrete three-file corpus. -/
theorem unreadable_document_aborts_witness :
    analyze ([{ path := "base/good1.md", category := "base", content := some "# A\n" }] ++
      { path := "base/bad2.md", category := "base", content := none } ::
      [{ path := "base/good2.md", category := "base", content := some "# B\n" }]) =
      .error "base/bad2.md" :=
  unreadable_document_aborts
    [{ path := "base/good1.md", category := "base", content := some "# A\n" }]
    { path := "base/bad2.md", category := "base", content := none }
    [{ path := "base/good2.md", category := "base", content := some "# B\n" }]
    (by decide) rfl

theorem isPrefixOf_append_self : ∀ (l1 l2 : List Char), l1.isPrefixOf (l1 ++ l2) = true := by
  intro l1 l2
  induction l1 with
  | nil => simp [List.isPrefixOf]
  | cons a as ih => simp [List.isPrefixOf, ih]

theorem startsWithStr_append (pre rest : String) :
    startsWithStr (pre ++ rest) pre = true := by
  have hdata : (pre ++ rest).toList = pre.toList ++ rest.toList := String.data_append pre rest
  simp only [startsWithStr, hdata]
  exact isPrefixOf_append_self pre.toList rest.toList

theorem baseGaps_category (analyses : List ContentAnalysis) :
    ∀ g ∈ baseGaps analyses, g.category = "base" := by
  intro g hg
  simp only [baseGaps, List.mem_filterMap] at hg
  obtain ⟨e, _, hfe⟩ := hg
  split at hfe
  · cases hfe
  · cases hfe
    rfl

theorem langGapsFor_category (analyses : List ContentAnalysis) (lang : String)
    (expected : List String) :
    ∀ g ∈ langGapsFor analyses lang expected, g.category = "language/" ++ lang := by
  intro g hg
  simp only [langGapsFor] at hg
  split at hg
  · simp only [List.mem_singleton] at hg
    rw [hg]
  · simp only [List.mem_filterMap] at hg
    obtain ⟨e, _, hfe⟩ := hg
    split at hfe
    · cases hfe
    · cases hfe
      rfl

/-- C4: gap detection does not treat the framework and cloud categories
like the language category.  The expected-topics table does list
frameworks (such as fastapi) and cloud providers (such as aws), and the
empty corpus certainly has no document for any of them, yet `_find_gaps`
emits no framework or cloud gap at all: every gap it ever produces is a
base gap or a `language/` gap. -/
theorem gap_detection_skips_framework_and_cloud :
    (expectedTopicsFramework.map Prod.fst).contains "fastapi" = true ∧
    (expectedTopicsCloud.map Prod.fst).contains "aws" = true ∧
    (findGaps []).length = 14 ∧
    ((findGaps []).filter (fun g =>
      startsWithStr g.category "framework" || startsWithStr g.category "cloud")).length = 0 ∧
    (∀ analyses : List ContentAnalysis,
      (findGaps analyses).all (fun g =>
        g.category == "base" || startsWithStr g.category "language/") = true) := by
  refine ⟨by decide, by decide, by decide, by decide, ?_⟩
  intro analyses
  rw [List.all_eq_true]
  intro g hg
  simp only [findGaps, List.mem_append, List.mem_flatten, List.mem_map] at hg
  rcases hg with hg | ⟨gs, ⟨p, _, hp⟩, hgs⟩
  · have := baseGaps_category analyses g hg
    simp [this]
  · rw [← hp] at hgs
    have := langGapsFor_category analyses p.1 p.2 g hgs
    rw [this]
    simp [startsWithStr_append]

/-- C6: on the empty corpus the analysis succeeds with overlap count 0;
every expected base topic is reported as a gap (so the gap count, here
14, is at least 9); and the composite score is the banded rendering of
`max(0, 100 - 3 * gapCount)` (the overlap term vanishes). -/
theorem analyze_empty_corpus :
    analyze [] = .ok emptyCorpusResult ∧
    emptyCorpusResult.total_overlaps = 0 ∧
    9 ≤ emptyCorpusResult.total_gaps ∧
    expectedTopicsBase.all
      (fun e => (findGaps []).any
        (fun g => g.category == "base" && g.missing_topics == [e])) = true ∧
    emptyCorpusResult.summary.mece_score =
      calculateMeceScore 0 emptyCorpusResult.total_gaps 0 ∧
    meceScoreValue 0 emptyCorpusResult.total_gaps =
      max 0 (100 - 3 * (emptyCorpusResult.total_gaps : Int)) := by
  decide

theorem overlapReportsOf_sound :
    ∀ (pairs : List (ContentAnalysis × ContentAnalysis)) (res : List OverlapReport),
      overlapReportsOf pairs = .ok res → ∀ r ∈ res,
      ∃ a b, (a, b) ∈ pairs ∧ a.category = b.category ∧
        r.file1 = a.file_path ∧ r.file2 = b.file_path := by
  intro pairs
  induction pairs with
  | nil =>
    intro res h r hr
    simp only [overlapReportsOf] at h
    cases h
    cases hr
  | cons p rest ih =>
    obtain ⟨a, b⟩ := p
    intro res h r hr
    simp only [overlapReportsOf] at h
    by_cases hcat : a.category = b.category
    · rw [if_pos hcat] at h
      by_cases hpf : preFilterPair a b = true
      · rw [if_pos hpf] at h
        cases hsc : overlapScore a b with
        | none =>
          rw [hsc] at h
          cases h
        | some s =>
          rw [hsc] at h
          dsimp only at h
          by_cases hgt : (3 : ℚ) / 10 < s
          · rw [if_pos hgt] at h
            cases hrest : overlapReportsOf rest with
            | error e =>
              rw [hrest] at h
              cases h
            | ok tail =>
              rw [hrest] at h
              cases h
              rcases hr with _ | hr'
              · exact ⟨a, b, List.mem_cons_self _ _, hcat, rfl, rfl⟩
              · obtain ⟨a', b', hm, hc, h1, h2⟩ := ih tail hrest r (by assumption)
                exact ⟨a', b', List.mem_cons_of_mem _ hm, hc, h1, h2⟩
          · rw [if_neg hgt] at h
            obtain ⟨a', b', hm, hc, h1, h2⟩ := ih res h r hr
            exact ⟨a', b', List.mem_cons_of_mem _ hm, hc, h1, h2⟩
      · rw [if_neg hpf] at h
        obtain ⟨a', b', hm, hc, h1, h2⟩ := ih res h r hr
        exact ⟨a', b', List.mem_cons_of_mem _ hm, hc, h1, h2⟩
    · rw [if_neg hcat] at h
      obtain ⟨a', b', hm, hc, h1, h2⟩ := ih res h r hr
      exact ⟨a', b', List.mem_cons_of_mem _ hm, hc, h1, h2⟩

theorem pairUps_file_ne :
    ∀ (l : List ContentAnalysis), (l.map ContentAnalysis.file_path).Nodup →
      ∀ a b, (a, b) ∈ pairUps l → a.file_path ≠ b.file_path := by
  intro l
  induction l with
  | nil =>
    intro _ a b hm
    simp [pairUps] at hm
  | cons x t ih =>
    intro hnd a b hm
    simp only [List.map_cons, List.nodup_cons] at hnd
    simp only [pairUps, List.mem_append, List.mem_map] at hm
    rcases hm with ⟨b', hb', he⟩ | hm
    · have hea : x = a := congrArg Prod.fst he
      have heb : b' = b := congrArg Prod.snd he
      rw [← hea, ← heb]
      intro hcontra
      exact hnd.1 (hcontra ▸ List.mem_map_of_mem ContentAnalysis.file_path hb')
    · exact ih hnd.2 a b hm

/-- C7: the overlap score is symmetric in its two profiles; every
reported overlap comes from an ordered pair of the comparison loop
(an earlier and a strictly later profile) within one category, so no
cross-category pair is ever reported; and when the corpus file paths are
distinct (as produced by the directory walk), no report compares a
document with itself. -/
theorem overlap_findings_symmetric_same_category_no_self :
    (∀ a b : ContentAnalysis, overlapScore a b = overlapScore b a) ∧
    (∀ (l : List ContentAnalysis) (res : List OverlapReport),
      findOverlaps l = .ok res → ∀ r ∈ res,
      ∃ a b, (a, b) ∈ pairUps l ∧ a.category = b.category ∧
        r.file1 = a.file_path ∧ r.file2 = b.file_path) ∧
    (∀ (l : List ContentAnalysis) (res : List OverlapReport),
      (l.map ContentAnalysis.file_path).Nodup → findOverlaps l = .ok res →
      ∀ r ∈ res, r.file1 ≠ r.file2) := by
  have hsound : ∀ (l : List ContentAnalysis) (res : List OverlapReport),
      findOverlaps l = .ok res → ∀ r ∈ res,
      ∃ a b, (a, b) ∈ pairUps l ∧ a.category = b.category ∧
        r.file1 = a.file_path ∧ r.file2 = b.file_path := by
    intro l res h r hr
    simp only [findOverlaps] at h
    cases hx : overlapReportsOf (pairUps l) with
    | error e =>
      rw [hx] at h
      cases h
    | ok rs =>
      rw [hx] at h
      cases h
      have hmem : r ∈ rs := (List.perm_insertionSort _ rs).mem_iff.mp hr
      exact overlapReportsOf_sound (pairUps l) rs hx r hmem
  refine ⟨?_, hsound, ?_⟩
  · intro a b
    simp only [overlapScore]
    rw [Finset.inter_comm a.keywords, Finset.inter_comm a.topics,
      Nat.max_comm a.keywords.card, Nat.max_comm a.topics.card]
  · intro l res hnd h r hr
    obtain ⟨a, b, hm, _, h1, h2⟩ := hsound l res h r hr
    rw [h1, h2]
    exact pairUps_file_ne l hnd a b hm

/-- A profile with four keywords and a private topic, for the C7
witness. -/
def wProfileA : ContentAnalysis :=
  { file_path := "base/w1.md", category := "base", topics := {"t1"},
    keywords := {"kw1", "kw2", "kw3", "kw4"}, headings := [], code_blocks := [],
    word_count := 0 }

/-- A second profile sharing all four keywords but no topic. -/
def wProfileB : ContentAnalysis :=
  { file_path := "base/w2.md", category := "base", topics := {"t2"},
    keywords := {"kw1", "kw2", "kw3", "kw4"}, headings := [], code_blocks := [],
    word_count := 0 }

/-- C7 witness: on a concrete two-profile corpus with distinct paths the
single reported overlap compares two distinct files, and the score is
symmetric. -/
theorem overlap_findings_witness :
    (mkOverlapReport wProfileA wProfileB (1 / 2)).file1 ≠
      (mkOverlapReport wProfileA wProfileB (1 / 2)).file2 ∧
    overlapScore wProfileA wProfileB = overlapScore wProfileB wProfileA :=
  ⟨overlap_findings_symmetric_same_category_no_self.2.2 [wProfileA, wProfileB]
      [mkOverlapReport wProfileA wProfileB (1 / 2)] (by decide) (by decide)
      (mkOverlapReport wProfileA wProfileB (1 / 2)) (by decide),
    overlap_findings_symmetric_same_category_no_self.1 wProfileA wProfileB⟩

theorem optIn_mono (v : Option String) (l l' : List String)
    (h : ∀ s, l.contains s = true → l'.contains s = true) :
    optIn v l = true → optIn v l' = true := by
  cases v with
  | none => intro hx; simp [optIn] at hx
  | some s => exact h s

/-- C8: rule selection is monotone in the matched context facets.
Enlarging the detected language, framework or cloud lists (with the same
catalog) never decreases the selected-rule count, and therefore never
decreases the selection efficiency `selected / available * 100`. -/
theorem selection_monotone_in_context (pr : ParsedRules)
    (L L' F F' C C' : List String) (mat mat' : String)
    (hL : ∀ s, L.contains s = true → L'.contains s = true)
    (hF : ∀ s, F.contains s = true → F'.contains s = true)
    (hC : ∀ s, C.contains s = true → C'.contains s = true) :
    (generateSelectionReport pr L F C mat).total_rules_selected ≤
      (generateSelectionReport pr L' F' C' mat').total_rules_selected ∧
    (generateSelectionReport pr L F C mat).selection_efficiency ≤
      (generateSelectionReport pr L' F' C' mat').selection_efficiency := by
  have hsel : (selectedOf pr L F C).length ≤ (selectedOf pr L' F' C').length := by
    simp only [selectedOf, List.length_append]
    have h1 := filter_length_mono pr.language
      (fun r => optIn r.language L) (fun r => optIn r.language L')
      (fun r => optIn_mono r.language L L' hL)
    have h2 := filter_length_mono pr.framework
      (fun r => optIn r.framework F) (fun r => optIn r.framework F')
      (fun r => optIn_mono r.framework F F' hF)
    have h3 := filter_length_mono pr.cloud
      (fun r => optIn r.cloud_provider C) (fun r => optIn r.cloud_provider C')
      (fun r => optIn_mono r.cloud_provider C C' hC)
    omega
  refine ⟨hsel, ?_⟩
  simp only [generateSelectionReport]
  by_cases hav : 0 < pr.base.length + pr.language.length + pr.framework.length + pr.cloud.length
  · rw [if_pos hav, if_pos hav]
    have hc : (0 : ℚ) <
        ((pr.base.length + pr.language.length + pr.framework.length + pr.cloud.length : Nat) : ℚ) :=
      Nat.cast_pos.mpr hav
    exact mul_le_mul_of_nonneg_right
      ((div_le_div_iff_of_pos_right hc).mpr (Nat.cast_le.mpr hsel)) (by norm_num)
  · rw [if_neg hav, if_neg hav]

/-- A one-rule catalog holding a single python language rule, for the C8
witness. -/
def wCatalog : ParsedRules :=
  { base := []
    language := [mkLangRule "python"
      { name := "Python Standards", path := some "languages/python/standards.md",
        file := none, estimatedTokens := none }]
    framework := []
    cloud := [] }

/-- C8 witness: adding the matching language `python` to an empty context
does not decrease the selected count or the efficiency on the concrete
one-rule catalog. -/
theorem selection_monotone_witness :
    (generateSelectionReport wCatalog [] [] [] "mvp").total_rules_selected ≤
      (generateSelectionReport wCatalog ["python"] [] [] "mvp").total_rules_selected ∧
    (generateSelectionReport wCatalog [] [] [] "mvp").selection_efficiency ≤
      (generateSelectionReport wCatalog ["python"] [] [] "mvp").selection_efficiency :=
  selection_monotone_in_context wCatalog [] ["python"] [] [] [] [] "mvp" "mvp"
    (fun s h => by simp at h) (fun _ h => h) (fun _ h => h)

/-- C9: stage gating by depth.  A successful run at depth `quick` leaves
the MECE content map, the accuracy audit and the file disposition all
absent (`none`, the explicit not-run value); at depth `standard` only the
accuracy audit is absent; at depth `full` with citations enabled all
three are present; and the accuracy audit is present only when the depth
is `full`. -/
theorem audit_depth_gating (cfg : AuditConfig) (ts root : String) (fs : List String)
    (idx : Option RulesIndex) (corpus : List CorpusFile) (arch : List String)
    (result : AuditResult)
    (h : runAudit cfg ts root fs idx corpus arch = .ok result) :
    (cfg.depth = "quick" → result.mece_content_map = none ∧
      result.accuracy_audit = none ∧ result.file_disposition = none) ∧
    (cfg.depth = "standard" → result.mece_content_map.isSome = true ∧
      result.accuracy_audit = none ∧ result.file_disposition.isSome = true) ∧
    (cfg.depth = "full" → cfg.enable_citations = true →
      result.mece_content_map.isSome = true ∧ result.accuracy_audit.isSome = true ∧
      result.file_disposition.isSome = true) ∧
    (result.accuracy_audit.isSome = true → cfg.depth = "full") := by
  simp only [runAudit] at h
  cases hg : (["standard", "full"].contains cfg.depth) with
  | false =>
    rw [hg] at h
    simp only [Bool.false_eq_true, if_neg (by simp : ¬False)] at h
    cases h
    refine ⟨?_, ?_, ?_, ?_⟩
    · intro hd
      simp [hd]
    · intro hd
      rw [hd] at hg
      exact absurd hg (by decide)
    · intro hd
      rw [hd] at hg
      exact absurd hg (by decide)
    · intro hacc
      by_contra hdep
      have : (cfg.depth == "full") = false := beq_eq_false_iff_ne.mpr hdep
      simp [this] at hacc
  | true =>
    rw [hg] at h
    simp only [if_pos trivial] at h
    cases han : analyze corpus with
    | error e =>
      rw [han] at h
      cases h
    | ok m =>
      rw [han] at h
      dsimp only at h
      cases h
      refine ⟨?_, ?_, ?_, ?_⟩
      · intro hd
        rw [hd] at hg
        exact absurd hg (by decide)
      · intro hd
        simp [hd]
      · intro hd hcit
        simp [hd, hcit]
      · intro hacc
        by_contra hdep
        have : (cfg.depth == "full") = false := beq_eq_false_iff_ne.mpr hdep
        simp [this] at hacc

/-- The standard-depth configuration for the C9 witness. -/
def auditStdConfig : AuditConfig :=
  { depth := "standard" }

/-- The result of a standard-depth run on empty inputs. -/
def auditStdResult : AuditResult :=
  exceptOk (runAudit auditStdConfig "t" "." [] none [] [])

/-- C9 witness: the gating statement applied to a concrete successful
standard-depth run. -/
theorem audit_depth_gating_witness :
    auditStdResult.mece_content_map.isSome = true ∧
    auditStdResult.accuracy_audit = none ∧
    auditStdResult.file_disposition.isSome = true :=
  (audit_depth_gating auditStdConfig "t" "." [] none [] [] auditStdResult
    (by decide)).2.1 rfl

theorem filter_cat_eq (L : List RuleMetadata) (c : String)
    (h : ∀ r ∈ L, r.category = c) :
    L.filter (fun r => r.category == c) = L :=
  List.filter_eq_self.mpr (fun a ha => by rw [h a ha]; exact beq_self_eq_true c)

theorem filter_cat_ne (L : List RuleMetadata) (c c' : String)
    (h : ∀ r ∈ L, r.category = c) (hne : c ≠ c') :
    L.filter (fun r => r.category == c') = [] := by
  rw [List.filter_eq_nil_iff]
  intro a ha
  rw [h a ha]
  simp [hne]

theorem parseIndex_base_cat (idx : Option RulesIndex) :
    ∀ r ∈ (parseIndex idx).base, r.category = "base" := by
  cases idx with
  | none => intro r hr; cases hr
  | some i =>
    intro r hr
    simp only [parseIndex, List.mem_map] at hr
    obtain ⟨e, _, he⟩ := hr
    rw [← he]
    rfl

theorem parseIndex_language_cat (idx : Option RulesIndex) :
    ∀ r ∈ (parseIndex idx).language, r.category = "language" := by
  cases idx with
  | none => intro r hr; cases hr
  | some i =>
    intro r hr
    exact normalizeKeyed_category mkLangRule "language" (fun _ _ => rfl) i.languages r hr

theorem parseIndex_framework_cat (idx : Option RulesIndex) :
    ∀ r ∈ (parseIndex idx).framework, r.category = "framework" := by
  cases idx with
  | none => intro r hr; cases hr
  | some i =>
    intro r hr
    exact normalizeKeyed_category mkFrameworkRule "framework" (fun _ _ => rfl) i.frameworks r hr

theorem parseIndex_cloud_cat (idx : Option RulesIndex) :
    ∀ r ∈ (parseIndex idx).cloud, r.category = "cloud" := by
  cases idx with
  | none => intro r hr; cases hr
  | some i =>
    intro r hr
    exact normalizeKeyed_category mkCloudRule "cloud" (fun _ _ => rfl) i.cloud r hr

/-- C10: on every report generated from a parsed index (the code path of
`generate_selection_report`), the four per-category breakdown counts sum
exactly to the selected total, and the selected total never exceeds the
available total. -/
theorem selection_report_breakdown_invariant (idx : Option RulesIndex)
    (L F C : List String) (mat : String) :
    (generateSelectionReport (parseIndex idx) L F C mat).breakdown_base +
      (generateSelectionReport (parseIndex idx) L F C mat).breakdown_language +
      (generateSelectionReport (parseIndex idx) L F C mat).breakdown_framework +
      (generateSelectionReport (parseIndex idx) L F C mat).breakdown_cloud =
      (generateSelectionReport (parseIndex idx) L F C mat).total_rules_selected ∧
    (generateSelectionReport (parseIndex idx) L F C mat).total_rules_selected ≤
      (generateSelectionReport (parseIndex idx) L F C mat).total_rules_available := by
  have hA : ∀ r ∈ (parseIndex idx).base.filter
      (fun r => criticalBase.contains (pathStem r.path)), r.category = "base" :=
    fun r hr => parseIndex_base_cat idx r (List.mem_filter.mp hr).1
  have hB : ∀ r ∈ (parseIndex idx).language.filter
      (fun r => optIn r.language L), r.category = "language" :=
    fun r hr => parseIndex_language_cat idx r (List.mem_filter.mp hr).1
  have hC : ∀ r ∈ (parseIndex idx).framework.filter
      (fun r => optIn r.framework F), r.category = "framework" :=
    fun r hr => parseIndex_framework_cat idx r (List.mem_filter.mp hr).1
  have hD : ∀ r ∈ (parseIndex idx).cloud.filter
      (fun r => optIn r.cloud_provider C), r.category = "cloud" :=
    fun r hr => parseIndex_cloud_cat idx r (List.mem_filter.mp hr).1
  constructor
  · simp only [generateSelectionReport, selectedOf, List.filter_append, List.length_append]
    rw [filter_cat_eq _ _ hA, filter_cat_ne _ _ _ hB (by decide),
      filter_cat_ne _ _ _ hC (by decide), filter_cat_ne _ _ _ hD (by decide),
      filter_cat_ne _ _ _ hA (by decide), filter_cat_eq _ _ hB,
      filter_cat_ne _ _ _ hC (by decide), filter_cat_ne _ _ _ hD (by decide),
      filter_cat_ne _ _ _ hA (by decide), filter_cat_ne _ _ _ hB (by decide),
      filter_cat_eq _ _ hC, filter_cat_ne _ _ _ hD (by decide),
      filter_cat_ne _ _ _ hA (by decide), filter_cat_ne _ _ _ hB (by decide),
      filter_cat_ne _ _ _ hC (by decide), filter_cat_eq _ _ hD]
    simp only [List.length_nil]
    omega
  · simp only [generateSelectionReport, selectedOf, List.length_append]
    have h1 := List.length_filter_le
      (fun r : RuleMetadata => criticalBase.contains (pathStem r.path)) (parseIndex idx).base
    have h2 := List.length_filter_le
      (fun r : RuleMetadata => optIn r.language L) (parseIndex idx).language
    have h3 := List.length_filter_le
      (fun r : RuleMetadata => optIn r.framework F) (parseIndex idx).framework
    have h4 := List.length_filter_le
      (fun r : RuleMetadata => optIn r.cloud_provider C) (parseIndex idx).cloud
    omega

end AuditAgent
